import Mathlib

/-!
Verification of the Time-Series Return & Multi-Source Reconciliation Engine
of the trendcaster-x repository.

The Python functions of `scripts/analyze_stocks.py`, `scripts/bist_returns.py`
and `src/main.py` are shallowly embedded as Lean definitions.  Finite machine
floats are modelled as `ℚ`.  Where a function's guard tests NaN explicitly
(`np.isnan` in `compute_return`, `pd.isna` in `calculate_percentage_change`)
and thereby treats NaN exactly like an absent value, a possibly-NaN float
argument is modelled as `Option ℚ` with `none` standing for both Python
`None` and NaN.  `_pct_change`'s guard does not test NaN (NaN compares
unequal to `0` and is not `None`), so NaN is observable there and its floats
are modelled by `PyFloat`, which carries NaN explicitly.
Raising an exception is modelled as an `Except` error; a Python function that
cannot raise is embedded as a total Lean function.
-/

namespace Trendcaster

/-! ## ReturnCalculator: the three per-file variants -/

/-- A Python float as `_pct_change` can observe it: NaN or a (finite)
value. -/
inductive PyFloat where
  | nan
  | val (q : ℚ)
deriving DecidableEq

/-- From `scripts/analyze_stocks.py`, `_pct_change(cur, past)`:
returns `0.0` when `cur is None` or `past in (None, 0)`; the membership test
uses `==`, so it catches `None` and `0.0` but not NaN (`nan == 0` is false).
Otherwise `((cur - past) / past) * 100.0` is computed; float arithmetic
propagates a NaN operand without raising, so the `except` never fires and a
NaN `cur` or `past` yields NaN. -/
def pct_change (cur past : Option PyFloat) : PyFloat :=
  match cur, past with
  | none, _ => .val 0
  | _, none => .val 0
  | some c, some p =>
    if p = .val 0 then .val 0
    else
      match c, p with
      | .val cv, .val pv => .val ((cv - pv) / pv * 100)
      | _, _ => .nan

/-- From `scripts/bist_returns.py`, `compute_return(cur_close, past_close)`:
returns `None` when `past_close` is `None`, `0` or NaN,
otherwise `cur_close / past_close - 1.0` (a fraction, not a percentage). -/
def compute_return (cur_close : ℚ) (past_close : Option ℚ) : Option ℚ :=
  match past_close with
  | none => none
  | some p => if p = 0 then none else some (cur_close / p - 1)

/-- From `src/main.py`, `calculate_percentage_change(current, past)`:
returns `0.0` when `past == 0`, `past` is NaN or `current` is NaN,
otherwise `((current - past) / past) * 100`. -/
def calculate_percentage_change (current past : Option ℚ) : ℚ :=
  match current, past with
  | _, none => 0
  | none, _ => 0
  | some c, some p => if p = 0 then 0 else (c - p) / p * 100

end Trendcaster

namespace Trendcaster

/-! ## Claims C1 and C2 -/

/-- C1 counterexample.  The claim says every return-computing variant yields
`absent` when the past price is absent, zero or negative, and never the
number `0` as a stand-in for missing data.  In the code, `_pct_change`
yields `0.0` for an absent past, `calculate_percentage_change` yields `0.0`
for a zero past, and `compute_return` computes a finite value for a negative
past instead of yielding `absent`. -/
theorem C1_counterexample :
    pct_change (some (.val 100)) none = .val 0 ∧
    calculate_percentage_change (some 110) (some 0) = 0 ∧
    compute_return 110 (some (-50)) = some (110 / (-50) - 1) := by
  refine ⟨rfl, ?_, ?_⟩ <;> norm_num [calculate_percentage_change, compute_return]

/-- C1 amended: `compute_return` (bist_returns.py) returns `absent` exactly
when the past price is absent, NaN or zero — never raising and never
yielding an infinite value — and computes the (fractional) formula for a
negative past; `_pct_change` (analyze_stocks.py) returns the number `0`
(never absent) when the current price is `None` or the past price is `None`
or zero, propagates NaN when the current or past price is NaN, and computes
the percentage formula for a negative past; `calculate_percentage_change`
(src/main.py) returns the number `0` (never absent) when the past price is
zero or either price is NaN, and computes the percentage formula for a
negative past; no variant raises. -/
theorem C1_absent_zero_behavior (c p : ℚ) (hp : p < 0) :
    compute_return c none = none ∧
    compute_return c (some 0) = none ∧
    compute_return c (some p) = some (c / p - 1) ∧
    pct_change (some (.val c)) none = .val 0 ∧
    pct_change none (some (.val p)) = .val 0 ∧
    pct_change (some (.val c)) (some (.val 0)) = .val 0 ∧
    pct_change (some (.val c)) (some .nan) = .nan ∧
    pct_change (some .nan) (some (.val p)) = .nan ∧
    pct_change (some (.val c)) (some (.val p)) = .val ((c - p) / p * 100) ∧
    calculate_percentage_change (some c) none = 0 ∧
    calculate_percentage_change none (some p) = 0 ∧
    calculate_percentage_change (some c) (some 0) = 0 ∧
    calculate_percentage_change (some c) (some p) = (c - p) / p * 100 := by
  have hne : p ≠ 0 := ne_of_lt hp
  refine ⟨rfl, by simp [compute_return], by simp [compute_return, hne], rfl, rfl,
    by simp [pct_change], by simp [pct_change], by simp [pct_change, hne],
    by simp [pct_change, hne], rfl, rfl,
    by simp [calculate_percentage_change],
    by simp [calculate_percentage_change, hne]⟩

/-- Witness for C1_absent_zero_behavior at `c = 2`, `p = -3`. -/
theorem C1_absent_zero_behavior_witness :
    compute_return 2 none = none ∧
    compute_return 2 (some 0) = none ∧
    compute_return 2 (some (-3)) = some (2 / (-3) - 1) ∧
    pct_change (some (.val 2)) none = .val 0 ∧
    pct_change none (some (.val (-3))) = .val 0 ∧
    pct_change (some (.val 2)) (some (.val 0)) = .val 0 ∧
    pct_change (some (.val 2)) (some .nan) = .nan ∧
    pct_change (some .nan) (some (.val (-3))) = .nan ∧
    pct_change (some (.val 2)) (some (.val (-3))) = .val ((2 - (-3)) / (-3) * 100) ∧
    calculate_percentage_change (some 2) none = 0 ∧
    calculate_percentage_change none (some (-3)) = 0 ∧
    calculate_percentage_change (some 2) (some 0) = 0 ∧
    calculate_percentage_change (some 2) (some (-3)) = (2 - (-3)) / (-3) * 100 :=
  C1_absent_zero_behavior 2 (-3) (by norm_num)

/-- C2 counterexample.  The claim says each variant returns exactly
`(current - past) / past * 100` (a percentage) when `past > 0`.
`compute_return 110 (some 100)` yields the fraction `1/10`, while the claimed
percentage is `10`. -/
theorem C2_counterexample :
    compute_return 110 (some 100) = some (1 / 10) ∧
    ((110 - 100) / 100 * 100 : ℚ) = 10 ∧
    (1 / 10 : ℚ) ≠ 10 := by
  refine ⟨?_, by norm_num, by norm_num⟩
  norm_num [compute_return]

/-- C2 amended: for `past > 0` (with the current price present and finite),
`_pct_change` and `calculate_percentage_change` return exactly
`(current - past) / past * 100`, while `compute_return` returns exactly the
fraction `(current - past) / past` — the percentage divided by 100. -/
theorem C2_formula (c p : ℚ) (hp : 0 < p) :
    pct_change (some (.val c)) (some (.val p)) = .val ((c - p) / p * 100) ∧
    calculate_percentage_change (some c) (some p) = (c - p) / p * 100 ∧
    compute_return c (some p) = some ((c - p) / p) := by
  have hne : p ≠ 0 := ne_of_gt hp
  refine ⟨by simp [pct_change, hne], by simp [calculate_percentage_change, hne], ?_⟩
  simp only [compute_return, if_neg hne, Option.some.injEq]
  field_simp

/-- Witness for C2_formula at `c = 110`, `p = 100`. -/
theorem C2_formula_witness :
    pct_change (some (.val 110)) (some (.val 100)) = .val ((110 - 100) / 100 * 100) ∧
    calculate_percentage_change (some 110) (some 100) = (110 - 100) / 100 * 100 ∧
    compute_return 110 (some 100) = some ((110 - 100) / 100) :=
  C2_formula 110 100 (by norm_num)

end Trendcaster

namespace Trendcaster

/-! ## TradingCalendarResolver -/

/-- A trading session: (date as an integer day number, closing price). -/
abbrev PricePoint := ℤ × ℚ

/-- From `scripts/bist_returns.py`, `nearest_on_or_before(idx, target_date)`:
builds the boolean mask `dates ≤ target_date`, returns `None` when no entry
matches, otherwise the entry at the greatest matching position
(`mask[mask].index.max()` followed by `s.iloc[pos]`).  The left fold keeps
the last matching element, which is the one at the greatest position. -/
def nearest_on_or_before (series : List PricePoint) (target : ℤ) : Option PricePoint :=
  series.foldl (fun acc p => if p.1 ≤ target then some p else acc) none

/-- From `scripts/analyze_stocks.py`, `get_closest_price(data_frame, date)`:
`df.loc[date]['Close']` when the exact date is present, otherwise the last
row of the slice `df.loc[:date]` (the leading rows with date ≤ target on a
sorted index), and `None` when that slice is empty. -/
def get_closest_price (series : List PricePoint) (date : ℤ) : Option ℚ :=
  match series.find? (fun p => p.1 == date) with
  | some p => some p.2
  | none => ((series.takeWhile (fun p => p.1 ≤ date)).getLast?).map (fun p => p.2)

/-- From `scripts/bist_returns.py`, `collect_returns` (previous-session
resolution): `prev_idx = df.index.get_loc(last_ts)` for the session resolved
on-or-before the target date, then `df.index[prev_idx - 1]` when
`prev_idx - 1 ≥ 0` and `None` otherwise. -/
def prev_session (series : List PricePoint) (target : ℤ) : Option PricePoint :=
  match nearest_on_or_before series target with
  | none => none
  | some p =>
    if 1 ≤ series.findIdx (fun q => q.1 == p.1) then
      series[series.findIdx (fun q => q.1 == p.1) - 1]?
    else none

/-- From `scripts/analyze_stocks.py`, `analyze_stocks` (previous close):
`hist['Close'].iloc[-2]` when `len(hist) >= 2` and `None` otherwise,
modelled on the full rows so the session's date stays visible. -/
def prev_session_a (hist : List PricePoint) : Option PricePoint :=
  if 2 ≤ hist.length then hist[hist.length - 2]? else none

/-- An update-on-match left fold returns the last matching element when one
exists and the initial accumulator otherwise. -/
theorem foldl_latest (l : List PricePoint) (t : ℤ) (acc : Option PricePoint) :
    l.foldl (fun acc p => if p.1 ≤ t then some p else acc) acc =
      match (l.filter (fun p => p.1 ≤ t)).getLast? with
      | some x => some x
      | none => acc := by
  induction l generalizing acc with
  | nil => rfl
  | cons a l ih =>
    rw [List.foldl_cons, ih]
    by_cases ha : a.1 ≤ t
    · rw [List.filter_cons_of_pos (by simpa using ha), if_pos ha]
      rcases h : (l.filter (fun p => decide (p.1 ≤ t))).getLast? with _ | x
      · rw [List.getLast?_eq_none_iff.mp h]
        simp
      · have hne : l.filter (fun p => decide (p.1 ≤ t)) ≠ [] := by
          intro hnil
          rw [hnil] at h
          cases h
        obtain ⟨b, rest, hbl⟩ := List.exists_cons_of_ne_nil hne
        rw [hbl] at h ⊢
        rw [List.getLast?_cons_cons, h]
    · rw [List.filter_cons_of_neg (by simpa using ha), if_neg ha]

/-- The function `nearest_on_or_before` is the last element of the `date ≤ target`
filtered list. -/
theorem nearest_eq_filter_getLast (S : List PricePoint) (d : ℤ) :
    nearest_on_or_before S d = (S.filter (fun p => p.1 ≤ d)).getLast? := by
  rw [nearest_on_or_before, foldl_latest]
  rcases h : (S.filter (fun p => decide (p.1 ≤ d))).getLast? with _ | x <;> simp [h]

/-- In a list with strictly increasing dates, the last element has the
greatest date. -/
theorem getLast?_date_le (l : List PricePoint)
    (hl : l.Pairwise (fun a b => a.1 < b.1)) {p : PricePoint}
    (hp : l.getLast? = some p) : ∀ q ∈ l, q.1 ≤ p.1 := by
  induction l with
  | nil => cases hp
  | cons a l ih =>
    rcases l with _ | ⟨b, l'⟩
    · have : a = p := by simpa using hp
      subst this
      intro q hq
      have : q = a := by simpa using hq
      simp [this]
    · rw [List.getLast?_cons_cons] at hp
      rw [List.pairwise_cons] at hl
      intro q hq
      rcases List.mem_cons.mp hq with rfl | hq'
      · exact le_of_lt (hl.1 p (List.mem_of_getLast?_eq_some hp))
      · exact ih hl.2 hp q hq'

/-- In a list with strictly increasing dates, two members with the same date
are the same point. -/
theorem same_date_eq (l : List PricePoint)
    (hl : l.Pairwise (fun a b => a.1 < b.1)) {p q : PricePoint}
    (hp : p ∈ l) (hq : q ∈ l) (h : p.1 = q.1) : p = q := by
  induction l with
  | nil => cases hp
  | cons a l ih =>
    rw [List.pairwise_cons] at hl
    rcases List.mem_cons.mp hp with rfl | hp' <;>
      rcases List.mem_cons.mp hq with rfl | hq'
    · rfl
    · exact absurd h (ne_of_lt (hl.1 q hq'))
    · exact absurd h.symm (ne_of_lt (hl.1 p hp'))
    · exact ih hl.2 hp' hq'

/-- On a list with strictly increasing dates, the positional slice
`takeWhile (date ≤ d)` agrees with the filter by `date ≤ d`. -/
theorem takeWhile_eq_filter_le (l : List PricePoint)
    (hl : l.Pairwise (fun a b => a.1 < b.1)) (d : ℤ) :
    l.takeWhile (fun p => p.1 ≤ d) = l.filter (fun p => p.1 ≤ d) := by
  induction l with
  | nil => rfl
  | cons a l ih =>
    rw [List.pairwise_cons] at hl
    by_cases ha : a.1 ≤ d
    · rw [List.takeWhile_cons_of_pos (by simpa using ha),
        List.filter_cons_of_pos (by simpa using ha), ih hl.2]
    · rw [List.takeWhile_cons_of_neg (by simpa using ha),
        List.filter_cons_of_neg (by simpa using ha)]
      have hnil : l.filter (fun p => decide (p.1 ≤ d)) = [] := by
        rw [List.filter_eq_nil_iff]
        intro x hx
        simp only [decide_eq_true_eq]
        exact not_le.mpr (lt_trans (not_le.mp ha) (hl.1 x hx))
      rw [hnil]

end Trendcaster

namespace Trendcaster

/-! ## Claim C4 -/

/-- C4: on a series with strictly increasing dates, `nearest_on_or_before`
returns the price point of the series with the greatest date `≤ d`
(a member of the series, never dated after `d`), it is absent exactly when
`d` precedes the series' first date, and `get_closest_price`
(analyze_stocks.py) returns exactly the close of that same point. -/
theorem C4_resolve_on_or_before (S : List PricePoint) (d : ℤ)
    (hS : S.Pairwise (fun a b => a.1 < b.1)) :
    (∀ p, nearest_on_or_before S d = some p →
        p ∈ S ∧ p.1 ≤ d ∧ ∀ q ∈ S, q.1 ≤ d → q.1 ≤ p.1) ∧
    (∀ hd tl, S = hd :: tl → (nearest_on_or_before S d = none ↔ d < hd.1)) ∧
    get_closest_price S d = (nearest_on_or_before S d).map (fun p => p.2) := by
  have hnf := nearest_eq_filter_getLast S d
  have hFp : (S.filter (fun p => p.1 ≤ d)).Pairwise (fun a b => a.1 < b.1) :=
    hS.filter _
  refine ⟨?_, ?_, ?_⟩
  · intro p hp
    rw [hnf] at hp
    have hpF : p ∈ S.filter (fun p => p.1 ≤ d) := List.mem_of_getLast?_eq_some hp
    have hmem := List.mem_filter.mp hpF
    refine ⟨hmem.1, by simpa using hmem.2, ?_⟩
    intro q hq hqd
    exact getLast?_date_le _ hFp hp q (List.mem_filter.mpr ⟨hq, by simpa using hqd⟩)
  · intro hd tl hStl
    subst hStl
    rw [hnf]
    constructor
    · intro h
      have := List.filter_eq_nil_iff.mp (List.getLast?_eq_none_iff.mp h) hd
        (List.mem_cons_self hd tl)
      simpa using this
    · intro h
      rw [List.getLast?_eq_none_iff, List.filter_eq_nil_iff]
      intro x hx
      rcases List.mem_cons.mp hx with rfl | hx'
      · simpa using not_le.mpr h
      · rw [List.pairwise_cons] at hS
        simpa using not_le.mpr (lt_trans h (hS.1 x hx'))
  · rcases hf : S.find? (fun p => p.1 == d) with _ | p
    · simp only [get_closest_price, hf, takeWhile_eq_filter_le S hS d, hnf]
    · simp only [get_closest_price, hf]
      have hpd : p.1 = d := by simpa using List.find?_some hf
      have hpS : p ∈ S := List.mem_of_find?_eq_some hf
      have hpF : p ∈ S.filter (fun p => p.1 ≤ d) :=
        List.mem_filter.mpr ⟨hpS, by simp [hpd]⟩
      have hne : S.filter (fun p => p.1 ≤ d) ≠ [] := List.ne_nil_of_mem hpF
      obtain ⟨q, hq⟩ : ∃ q, (S.filter (fun p => p.1 ≤ d)).getLast? = some q := by
        rcases h : (S.filter (fun p => p.1 ≤ d)).getLast? with _ | q
        · exact absurd (List.getLast?_eq_none_iff.mp h) hne
        · exact ⟨q, h⟩
      have hqF := List.mem_of_getLast?_eq_some hq
      have hqm := List.mem_filter.mp hqF
      have hqd : q.1 ≤ d := by simpa using hqm.2
      have hple : p.1 ≤ q.1 := getLast?_date_le _ hFp hq p hpF
      have hdate : q.1 = p.1 := le_antisymm (hpd ▸ hqd) hple
      have hqp : q = p := same_date_eq S hS hqm.1 hpS hdate
      rw [hnf, hq, hqp]
      rfl

/-- Witness for C4_resolve_on_or_before on the series
`[(1, 10), (3, 12), (7, 9)]` at target date `5`. -/
theorem C4_resolve_on_or_before_witness :
    ((∀ p, nearest_on_or_before [((1 : ℤ), (10 : ℚ)), (3, 12), (7, 9)] 5 = some p →
        p ∈ [((1 : ℤ), (10 : ℚ)), (3, 12), (7, 9)] ∧ p.1 ≤ 5 ∧
          ∀ q ∈ [((1 : ℤ), (10 : ℚ)), (3, 12), (7, 9)], q.1 ≤ 5 → q.1 ≤ p.1) ∧
    (∀ hd tl, [((1 : ℤ), (10 : ℚ)), (3, 12), (7, 9)] = hd :: tl →
        (nearest_on_or_before [((1 : ℤ), (10 : ℚ)), (3, 12), (7, 9)] 5 = none ↔
          5 < hd.1)) ∧
    get_closest_price [((1 : ℤ), (10 : ℚ)), (3, 12), (7, 9)] 5 =
      (nearest_on_or_before [((1 : ℤ), (10 : ℚ)), (3, 12), (7, 9)] 5).map
        (fun p => p.2)) ∧
    nearest_on_or_before [((1 : ℤ), (10 : ℚ)), (3, 12), (7, 9)] 5 = some (3, 12) ∧
    get_closest_price [((1 : ℤ), (10 : ℚ)), (3, 12), (7, 9)] 5 = some 12 ∧
    nearest_on_or_before [((1 : ℤ), (10 : ℚ)), (3, 12), (7, 9)] 0 = none :=
  ⟨C4_resolve_on_or_before [(1, 10), (3, 12), (7, 9)] 5 (by decide), by decide,
    by decide, by decide⟩

end Trendcaster

namespace Trendcaster

/-! ## Claim C6 -/

/-- C6: on a series with strictly increasing dates, the previous-session
resolution of `collect_returns` (bist_returns.py) only returns a member of
the series dated strictly before both the target date and the resolved
current session; it is absent when nothing is resolved, when no strictly
earlier point exists, and in particular when the series has a single point.
The analyze_stocks.py variant (`iloc[-2]`) likewise returns a member dated
strictly before the latest session, and is absent on a single-point
series — so the Daily return is never computed against the current close
itself. -/
theorem C6_previous_session (S : List PricePoint) (d : ℤ)
    (hS : S.Pairwise (fun a b => a.1 < b.1)) :
    (∀ p, prev_session S d = some p → p ∈ S ∧ p.1 < d ∧
        ∃ q, nearest_on_or_before S d = some q ∧ p.1 < q.1) ∧
    (nearest_on_or_before S d = none → prev_session S d = none) ∧
    (∀ q, nearest_on_or_before S d = some q → (∀ r ∈ S, ¬ r.1 < q.1) →
        prev_session S d = none) ∧
    (S.length = 1 → prev_session S d = none) ∧
    (∀ p q, prev_session_a S = some p → S.getLast? = some q →
        p ∈ S ∧ p.1 < q.1) ∧
    (S.length = 1 → prev_session_a S = none) := by
  refine ⟨?_, ?_, ?_, ?_, ?_, ?_⟩
  · intro p hp
    rcases hq : nearest_on_or_before S d with _ | q
    · rw [prev_session, hq] at hp
      cases hp
    · have hqd : q.1 ≤ d := by
        rw [nearest_eq_filter_getLast] at hq
        have := List.mem_filter.mp (List.mem_of_getLast?_eq_some hq)
        simpa using this.2
      have hqS : q ∈ S := by
        rw [nearest_eq_filter_getLast] at hq
        exact (List.mem_filter.mp (List.mem_of_getLast?_eq_some hq)).1
      have hex : ∃ x ∈ S, (fun r : PricePoint => r.1 == q.1) x :=
        ⟨q, hqS, by simp⟩
      have hpos : S.findIdx (fun r => r.1 == q.1) < S.length :=
        List.findIdx_lt_length_of_exists hex
      have hw : S[S.findIdx (fun r => r.1 == q.1)]? =
          some (S.get ⟨S.findIdx (fun r => r.1 == q.1), hpos⟩) :=
        List.getElem?_eq_getElem hpos
      have hedate : (S.get ⟨S.findIdx (fun r => r.1 == q.1), hpos⟩).1 = q.1 := by
        simpa using List.findIdx_of_getElem?_eq_some hw
      simp only [prev_session, hq] at hp
      by_cases h1 : 1 ≤ S.findIdx (fun r => r.1 == q.1)
      · rw [if_pos h1] at hp
        obtain ⟨hlt, hpe⟩ := List.getElem?_eq_some_iff.mp hp
        have hij : S.findIdx (fun r => r.1 == q.1) - 1 <
            S.findIdx (fun r => r.1 == q.1) := by omega
        have hdlt := List.pairwise_iff_getElem.mp hS
          (S.findIdx (fun r => r.1 == q.1) - 1) (S.findIdx (fun r => r.1 == q.1))
          hlt hpos hij
        rw [hpe] at hdlt
        have hpq : p.1 < q.1 := by
          rw [← hedate]
          exact hdlt
        exact ⟨hpe ▸ List.getElem_mem hlt, lt_of_lt_of_le hpq hqd, q, rfl, hpq⟩
      · rw [if_neg h1] at hp
        cases hp
  · intro h
    simp only [prev_session, h]
  · intro q hq hnoearlier
    have hqS : q ∈ S := by
      rw [nearest_eq_filter_getLast] at hq
      exact (List.mem_filter.mp (List.mem_of_getLast?_eq_some hq)).1
    have hex : ∃ x ∈ S, (fun r : PricePoint => r.1 == q.1) x :=
      ⟨q, hqS, by simp⟩
    have hpos : S.findIdx (fun r => r.1 == q.1) < S.length :=
      List.findIdx_lt_length_of_exists hex
    have hw : S[S.findIdx (fun r => r.1 == q.1)]? =
        some (S.get ⟨S.findIdx (fun r => r.1 == q.1), hpos⟩) :=
      List.getElem?_eq_getElem hpos
    have hedate : (S.get ⟨S.findIdx (fun r => r.1 == q.1), hpos⟩).1 = q.1 := by
      simpa using List.findIdx_of_getElem?_eq_some hw
    simp only [prev_session, hq]
    rw [if_neg]
    intro h1
    have h0 : 0 < S.length := Nat.lt_of_le_of_lt (Nat.zero_le _) hpos
    have hdlt := List.pairwise_iff_getElem.mp hS 0
      (S.findIdx (fun r => r.1 == q.1)) h0 hpos (by omega)
    refine hnoearlier (S.get ⟨0, h0⟩) (List.getElem_mem h0) ?_
    rw [← hedate]
    exact hdlt
  · intro hlen
    obtain ⟨a, rfl⟩ := List.length_eq_one.mp hlen
    by_cases had : a.1 ≤ d
    · have hn : nearest_on_or_before [a] d = some a := by
        simp [nearest_on_or_before, had]
      simp only [prev_session, hn]
      simp [List.findIdx_cons]
    · have hn : nearest_on_or_before [a] d = none := by
        simp [nearest_on_or_before, had]
      simp only [prev_session, hn]
  · intro p q hp hq2
    by_cases h2 : 2 ≤ S.length
    · rw [prev_session_a, if_pos h2] at hp
      obtain ⟨hlt, hpe⟩ := List.getElem?_eq_some_iff.mp hp
      rw [List.getLast?_eq_getElem?] at hq2
      obtain ⟨hlt1, hqe⟩ := List.getElem?_eq_some_iff.mp hq2
      have hij : S.length - 2 < S.length - 1 := by omega
      have hdlt := List.pairwise_iff_getElem.mp hS
        (S.length - 2) (S.length - 1) hlt hlt1 hij
      rw [hpe, hqe] at hdlt
      exact ⟨hpe ▸ List.getElem_mem hlt, hdlt⟩
    · rw [prev_session_a, if_neg h2] at hp
      cases hp
  · intro hlen
    rw [prev_session_a, if_neg (by omega)]

/-- Witness for C6_previous_session on the series
`[(1, 10), (3, 12), (7, 9)]` at target date `5`; there
`prev_session` resolves to the `(1, 10)` point (strictly before the resolved
`(3, 12)` session) and the analyze_stocks previous close is `(3, 12)`,
strictly before the latest `(7, 9)` session. -/
theorem C6_previous_session_witness :
    prev_session [((1 : ℤ), (10 : ℚ)), (3, 12), (7, 9)] 5 = some (1, 10) ∧
    prev_session_a [((1 : ℤ), (10 : ℚ)), (3, 12), (7, 9)] = some (3, 12) ∧
    prev_session [((1 : ℤ), (10 : ℚ))] 5 = none ∧
    (∀ p, prev_session [((1 : ℤ), (10 : ℚ)), (3, 12), (7, 9)] 5 = some p →
        p ∈ [((1 : ℤ), (10 : ℚ)), (3, 12), (7, 9)] ∧ p.1 < 5 ∧
        ∃ q, nearest_on_or_before [((1 : ℤ), (10 : ℚ)), (3, 12), (7, 9)] 5 =
            some q ∧ p.1 < q.1) :=
  ⟨by decide, by decide, by decide,
    (C6_previous_session [(1, 10), (3, 12), (7, 9)] 5 (by decide)).1⟩

end Trendcaster

namespace Trendcaster

/-! ## SnapshotCache and the acquisition fallback chain (src/main.py)

The cache file holds JSON text; `json.dump`/`json.load` round-trip a Python
dict through text, which is modelled at the level of parsed JSON values.
A stored file is `missing`, `corrupt` (parsing raises) or `stored j` for the
parsed value `j`. -/

/-- A parsed JSON value (numbers as `ℚ`, which covers every numeral that
occurs in the cached payloads). -/
inductive Json where
  | null
  | str (s : String)
  | num (q : ℚ)
  | bool (b : Bool)
  | arr (elems : List Json)
  | obj (fields : List (String × Json))

/-- Python truthiness of a parsed JSON value (`None`/`0`/`""`/`[]`/`{}` are
falsy, everything else truthy). -/
def Json.truthy : Json → Bool
  | .null => false
  | .str s => s != ""
  | .num q => q != 0
  | .bool b => b
  | .arr l => !l.isEmpty
  | .obj kvs => !kvs.isEmpty

/-- Python `value.get(key)`: `None`-or-value on a dict, raises
`AttributeError` on any non-dict value. -/
def Json.dictGet : Json → String → Except String (Option Json)
  | .obj kvs, k => .ok (kvs.lookup k)
  | _, _ => .error "AttributeError"

/-- The state of the snapshot cache file `.cache/bist_latest.json`. -/
inductive CacheFile where
  | missing
  | corrupt
  | stored (j : Json)

/-- From `src/main.py`, `read_cache()`: `None` when the file does not exist
or loading raises (the exception is caught and logged), otherwise the parsed
JSON value. -/
def read_cache : CacheFile → Option Json
  | .missing => none
  | .corrupt => none
  | .stored j => some j

/-- From `src/main.py`, `write_cache(data, run_dt)`: stores
`{"timestamp": run_dt.isoformat(), "data": data}` as the new cache file. -/
def write_cache (data : List Json) (run_ts : String) : CacheFile :=
  .stored (.obj [("timestamp", .str run_ts), ("data", .arr data)])

/-- From `src/main.py`, `get_final_data(run_dt)`.  The live fetch outcome is
passed in as the record list `fetched` (empty both when every symbol failed
and when `fetch_all_bist_stocks` raised — the exception is caught and leaves
`final_data = []`).  Returns the published dataset (or the fatal
`sys.exit(1)` as an error) together with the resulting cache-file state:
non-empty fetch → publish it and write the cache; empty fetch → read the
cache and republish `cache["data"]` when `cache and cache.get("data")` is
truthy; otherwise exit fatally without writing. -/
def get_final_data (fetched : List Json) (run_ts : String) (cf : CacheFile) :
    Except String Json × CacheFile :=
  if fetched.isEmpty then
    match read_cache cf with
    | none => (.error "exit(1)", cf)
    | some cache =>
      if cache.truthy then
        match cache.dictGet "data" with
        | .error e => (.error e, cf)
        | .ok none => (.error "exit(1)", cf)
        | .ok (some d) => if d.truthy then (.ok d, cf) else (.error "exit(1)", cf)
      else (.error "exit(1)", cf)
  else (.ok (.arr fetched), write_cache fetched run_ts)

end Trendcaster

namespace Trendcaster

/-- A lookup only succeeds on a non-empty association list. -/
theorem lookup_ne_nil {kvs : List (String × Json)} {k : String} {d : Json}
    (h : kvs.lookup k = some d) : kvs ≠ [] := by
  intro h0
  rw [h0] at h
  cases h

/-- Shared republish case of `get_final_data`: an empty fetch with a parsed
dict cache whose `"data"` entry is truthy republishes that entry verbatim and
leaves the cache file untouched. -/
theorem cache_republish (ts : String) (cf : CacheFile)
    (kvs : List (String × Json)) (d : Json)
    (hr : read_cache cf = some (.obj kvs))
    (hl : kvs.lookup "data" = some d) (ht : d.truthy = true) :
    get_final_data [] ts cf = (.ok d, cf) := by
  have hkne : kvs ≠ [] := lookup_ne_nil hl
  have htr : (Json.obj kvs).truthy = true := by
    rcases kvs with _ | ⟨a, l⟩
    · exact absurd rfl hkne
    · rfl
  simp [get_final_data, hr, htr, Json.dictGet, hl, ht]

end Trendcaster

namespace Trendcaster

/-! ## Claims C3, C7 and C8 -/

/-- C3 counterexample.  The claim says that whenever the live record set is
empty and the cache read yields a snapshot, that snapshot's records are
republished, and that the run only terminates fatally when the cache was
never written or fails to parse.  A stored snapshot whose `"data"` list is
empty is read back as a present snapshot, yet the run exits fatally
instead of republishing it (the code requires `cache.get("data")` to be
truthy, and an empty list is falsy in Python). -/
theorem C3_counterexample :
    read_cache (CacheFile.stored (Json.obj
        [("timestamp", Json.str "2024-01-01T00:00:00"), ("data", Json.arr [])])) =
      some (Json.obj
        [("timestamp", Json.str "2024-01-01T00:00:00"), ("data", Json.arr [])]) ∧
    (get_final_data [] "2024-06-01T18:30:00" (CacheFile.stored (Json.obj
        [("timestamp", Json.str "2024-01-01T00:00:00"),
          ("data", Json.arr [])]))).1 = .error "exit(1)" :=
  ⟨rfl, rfl⟩

/-- C3 amended: the fallback chain of `get_final_data` is: a non-empty live
record set is written to the cache and published; on an empty record set the
cache is read, and a parsed snapshot with a present, truthy (in particular
non-empty) `"data"` entry has exactly those records republished with the
cache left untouched; in every other case — cache never written, parse
failure (both of which make `read_cache` yield `None` without raising), or a
snapshot whose `"data"` entry is missing, empty or otherwise falsy — the run
terminates fatally with a non-zero status and writes nothing.  There is no
third fallback. -/
theorem C3_fallback_chain (fetched : List Json) (ts : String) (cf : CacheFile) :
    (fetched ≠ [] →
      get_final_data fetched ts cf = (.ok (.arr fetched), write_cache fetched ts)) ∧
    (fetched = [] → ∀ kvs d, read_cache cf = some (.obj kvs) →
      kvs.lookup "data" = some d → d.truthy = true →
      get_final_data fetched ts cf = (.ok d, cf)) ∧
    (fetched = [] →
      (¬ ∃ kvs d, read_cache cf = some (.obj kvs) ∧ kvs.lookup "data" = some d ∧
          d.truthy = true) →
      ∃ e, get_final_data fetched ts cf = (.error e, cf)) ∧
    read_cache CacheFile.missing = none ∧ read_cache CacheFile.corrupt = none := by
  refine ⟨?_, ?_, ?_, rfl, rfl⟩
  · intro h
    rcases fetched with _ | ⟨a, t⟩
    · exact absurd rfl h
    · rfl
  · intro h kvs d hr hl ht
    subst h
    exact cache_republish ts cf kvs d hr hl ht
  · intro h hno
    subst h
    rcases hr : read_cache cf with _ | cache
    · exact ⟨"exit(1)", by simp [get_final_data, hr]⟩
    · rcases htr : cache.truthy with _ | _
      · exact ⟨"exit(1)", by simp [get_final_data, hr, htr]⟩
      · rcases cache with _ | s | q | b | l | kvs
        · cases htr
        · exact ⟨"AttributeError", by simp [get_final_data, hr, htr, Json.dictGet]⟩
        · exact ⟨"AttributeError", by simp [get_final_data, hr, htr, Json.dictGet]⟩
        · exact ⟨"AttributeError", by simp [get_final_data, hr, htr, Json.dictGet]⟩
        · exact ⟨"AttributeError", by simp [get_final_data, hr, htr, Json.dictGet]⟩
        · rcases hl : kvs.lookup "data" with _ | d
          · exact ⟨"exit(1)", by simp [get_final_data, hr, htr, Json.dictGet, hl]⟩
          · have hdt : d.truthy = false := by
              rcases hx : d.truthy with _ | _
              · rfl
              · exact absurd ⟨kvs, d, hr, hl, hx⟩ hno
            exact ⟨"exit(1)", by
              simp [get_final_data, hr, htr, Json.dictGet, hl, hdt]⟩

/-- Witness for C3_fallback_chain with one fetched record, a run timestamp
and a previously stored snapshot. -/
theorem C3_fallback_chain_witness :
    ([Json.obj [("ticker", Json.str "AKBNK")]] ≠ ([] : List Json)) ∧
    ((([] : List Json) = []) ∧
      (¬ ∃ kvs d,
          read_cache CacheFile.missing = some (.obj kvs) ∧
          kvs.lookup "data" = some d ∧ d.truthy = true)) ∧
    get_final_data [Json.obj [("ticker", Json.str "AKBNK")]] "2024-06-01" .missing =
      (.ok (.arr [Json.obj [("ticker", Json.str "AKBNK")]]),
        write_cache [Json.obj [("ticker", Json.str "AKBNK")]] "2024-06-01") ∧
    (∃ e, get_final_data [] "2024-06-01" CacheFile.missing =
        (.error e, CacheFile.missing)) :=
  ⟨by simp, ⟨rfl, by simp [read_cache]⟩,
    (C3_fallback_chain [Json.obj [("ticker", Json.str "AKBNK")]] "2024-06-01"
        .missing).1 (by simp),
    (C3_fallback_chain [] "2024-06-01" .missing).2.2.1 rfl (by simp [read_cache])⟩

/-- C7: when the live fetch yields nothing and a valid prior snapshot (a
parsed dict with a non-empty `"data"` record list) exists, the published
records are exactly the cached records, unchanged — in particular every
field stored inside them, `last_updated` included, keeps the value written at
snapshot time — and the cache file itself is not rewritten. -/
theorem C7_restore_verbatim (kvs : List (String × Json)) (records : List Json)
    (ts : String) (hl : kvs.lookup "data" = some (.arr records))
    (hne : records ≠ []) :
    get_final_data [] ts (.stored (.obj kvs)) =
      (.ok (.arr records), .stored (.obj kvs)) := by
  refine cache_republish ts _ kvs (.arr records) rfl hl ?_
  rcases records with _ | ⟨a, l⟩
  · exact absurd rfl hne
  · rfl

/-- Witness for C7_restore_verbatim: a snapshot written at an old timestamp
with one record whose `last_updated` is the old run's epoch; restoring at a
later run republishes it verbatim. -/
theorem C7_restore_verbatim_witness :
    get_final_data [] "2025-06-01T18:30:00"
        (.stored (.obj [("timestamp", Json.str "2024-01-01T18:30:00"),
          ("data", Json.arr [Json.obj [("ticker", Json.str "AKBNK"),
            ("last_updated", Json.num 1704134600)]])])) =
      (.ok (Json.arr [Json.obj [("ticker", Json.str "AKBNK"),
          ("last_updated", Json.num 1704134600)]]),
        .stored (.obj [("timestamp", Json.str "2024-01-01T18:30:00"),
          ("data", Json.arr [Json.obj [("ticker", Json.str "AKBNK"),
            ("last_updated", Json.num 1704134600)]])])) :=
  C7_restore_verbatim _ _ _ rfl (by simp)

/-- C8: snapshot round-trip — reading the cache immediately after
`write_cache X t` parses back exactly the stored object, whose `"data"`
entry is `X` and whose `"timestamp"` entry is `t`. -/
theorem C8_snapshot_roundtrip (data : List Json) (ts : String) :
    read_cache (write_cache data ts) =
      some (.obj [("timestamp", .str ts), ("data", .arr data)]) ∧
    (Json.obj [("timestamp", .str ts), ("data", .arr data)]).dictGet "data" =
      .ok (some (.arr data)) ∧
    (Json.obj [("timestamp", .str ts), ("data", .arr data)]).dictGet "timestamp" =
      .ok (some (.str ts)) := by
  refine ⟨rfl, ?_, ?_⟩ <;> simp [Json.dictGet, List.lookup]

end Trendcaster

namespace Trendcaster

/-! ## Ticker universe loading -/

/-- An ASCII uppercase letter, the character class `[A-Z]` of the admission
regexes. -/
def isUpperLetter (c : Char) : Bool := decide (65 ≤ c.toNat) && decide (c.toNat ≤ 90)

/-- Python `str.strip()`: drop leading and trailing whitespace. -/
def pyStrip (s : String) : String :=
  ⟨((s.data.dropWhile Char.isWhitespace).reverse.dropWhile Char.isWhitespace).reverse⟩

/-- Python `str.upper()` on the ASCII range relevant to ticker codes. -/
def pyUpper (s : String) : String := ⟨s.data.map Char.toUpper⟩

/-- Python `s.endswith(".IS")`: the last three characters are `'.'`, `'I'`,
`'S'`. -/
def ends_with_is (s : String) : Bool :=
  match s.data.reverse with
  | cS :: cI :: cDot :: _ => cS == 'S' && cI == 'I' && cDot == '.'
  | _ => false

/-- From `scripts/analyze_stocks.py`, `_ensure_is_suffix(sym)`: an empty
symbol is returned as is; otherwise strip, uppercase and append `".IS"`
unless already present. -/
def ensure_is_suffix (s : String) : String :=
  if s = "" then s
  else
    if ends_with_is (pyUpper (pyStrip s)) then pyUpper (pyStrip s)
    else pyUpper (pyStrip s) ++ ".IS"

/-- From `scripts/analyze_stocks.py`, `_is_equity_symbol(sym)`:
`re.fullmatch(r"[A-Z]{3,5}\.IS", sym)`.  A full match is a run of 3–5
uppercase letters followed by exactly `".IS"`; since `.` is not an uppercase
letter, the run is exactly the maximal uppercase-letter leading segment, so
the regex is decided on the takeWhile/dropWhile split of the characters. -/
def is_equity_symbol (s : String) : Bool :=
  decide (3 ≤ (s.data.takeWhile isUpperLetter).length) &&
  decide ((s.data.takeWhile isUpperLetter).length ≤ 5) &&
  (s.data.dropWhile isUpperLetter == ['.', 'I', 'S'])

/-- From `scripts/bist_returns.py`, `fetch_all_bist_tickers`:
`df["Symbol"].str.fullmatch(r"[A-Z]{2,6}")` — a bare run of 2–6 uppercase
letters. -/
def symbol_fullmatch_2_6 (s : String) : Bool :=
  s.data.all isUpperLetter && decide (2 ≤ s.data.length) &&
    decide (s.data.length ≤ 6)

/-- Ordered duplicate-free insertion into a strictly sorted list, used to
model Python's `sorted(set(xs))`. -/
def insD (a : String) : List String → List String
  | [] => [a]
  | b :: bs => if a < b then a :: b :: bs else if a = b then b :: bs else b :: insD a bs

/-- Python `sorted(set(xs))`: the strictly increasing enumeration of the
distinct elements of `xs`. -/
def sortedDedup (l : List String) : List String := l.foldr insD []

/-- From `scripts/analyze_stocks.py`, `FALLBACK_TICKERS`. -/
def FALLBACK_TICKERS : List String :=
  ["AKBNK.IS", "GARAN.IS", "YKBNK.IS", "ISCTR.IS", "HALKB.IS",
   "VAKBN.IS", "TSKB.IS", "SKBNK.IS", "ALBRK.IS", "KLNMA.IS",
   "KCHOL.IS", "SAHOL.IS", "BIMAS.IS", "ENKAI.IS", "TAVHL.IS",
   "ALARK.IS", "DOAS.IS", "AGHOL.IS", "ULKER.IS", "TKFEN.IS",
   "MGROS.IS", "GOZDE.IS", "AEFES.IS", "GLYHO.IS", "IHLAS.IS",
   "EREGL.IS", "TUPRS.IS", "FROTO.IS", "TOASO.IS", "ARCLK.IS",
   "VESTL.IS", "SASA.IS", "HEKTS.IS", "PETKM.IS", "SISE.IS",
   "KRDMD.IS", "GUBRF.IS", "KORDS.IS", "TTRAK.IS", "OTKAR.IS",
   "AYGAZ.IS", "KMPUR.IS", "DEVA.IS", "ECILC.IS", "EGEEN.IS",
   "JANTS.IS", "KARTN.IS", "KONTR.IS", "SMRTG.IS", "ARZUM.IS",
   "ARTMS.IS",
   "THYAO.IS", "PGSUS.IS", "MPARK.IS", "ULUSN.IS",
   "TCELL.IS", "TTKOM.IS", "ASELS.IS", "LOGO.IS", "KAREL.IS",
   "ARDYZ.IS", "INDES.IS",
   "AKSEN.IS", "AYDEM.IS", "ZOREN.IS", "ENERY.IS", "ODAS.IS",
   "GWIND.IS", "BIOEN.IS", "AYEN.IS", "AKSUE.IS",
   "ONCSM.IS",
   "EKGYO.IS", "ISGYO.IS", "TRGYO.IS", "AKFGY.IS", "HLGYO.IS",
   "AKCNS.IS", "CIMSA.IS", "OYAKC.IS", "BUCIM.IS", "AFYON.IS",
   "YBTAS.IS",
   "AKGRT.IS", "ANHYT.IS", "AGESA.IS", "TURSG.IS",
   "TERA.IS",
   "KOZAL.IS", "IPEKE.IS", "KOZAA.IS", "DOHOL.IS", "SOKM.IS"]

/-- From `scripts/analyze_stocks.py`, `_load_from_file(path)` applied to the
file's lines (a missing file is the empty line list): strip each line, skip
empties, normalize with `_ensure_is_suffix`, keep only `_is_equity_symbol`
matches and return `sorted(set(out))`. -/
def load_from_file (lines : List String) : List String :=
  sortedDedup (lines.filterMap (fun line =>
    if pyStrip line = "" then none
    else
      if is_equity_symbol (ensure_is_suffix (pyStrip line)) then
        some (ensure_is_suffix (pyStrip line))
      else none))

/-- From `scripts/analyze_stocks.py`, `_load_from_url(url)` applied to the
stripped candidate cell values scraped from the page's tables: normalize
each with `_ensure_is_suffix`, keep only `_is_equity_symbol` matches and
return `sorted(set(norm))`. -/
def load_from_url (candidates : List String) : List String :=
  sortedDedup (((candidates.map pyStrip).map ensure_is_suffix).filter
    is_equity_symbol)

/-- From `scripts/analyze_stocks.py`, `load_all_bist_tickers()`:
file source first, then the `BIST_TICKERS_URL` source when the variable is
set (`none` models an unset variable), then `sorted(set(FALLBACK_TICKERS))`;
a non-empty result short-circuits. -/
def load_all_bist_tickers (fileLines : List String)
    (urlCandidates : Option (List String)) : List String :=
  if (load_from_file fileLines).isEmpty then
    match urlCandidates with
    | some cands =>
      if (load_from_url cands).isEmpty then sortedDedup FALLBACK_TICKERS
      else load_from_url cands
    | none => sortedDedup FALLBACK_TICKERS
  else load_from_file fileLines

/-- Pandas `df.drop_duplicates` on the Symbol column: keep the first row for each
symbol. -/
def dedup_by_symbol (seen : List String) :
    List (String × String) → List (String × String)
  | [] => []
  | r :: rs =>
    if seen.contains r.1 then dedup_by_symbol seen rs
    else r :: dedup_by_symbol (r.1 :: seen) rs

/-- From `scripts/bist_returns.py`, `fetch_all_bist_tickers` applied to the
endpoint's parsed rows (symbol, display name): keep rows whose symbol fully
matches `[A-Z]{2,6}`, then drop duplicate symbols. -/
def fetch_all_bist_tickers_filter (rows : List (String × String)) :
    List (String × String) :=
  dedup_by_symbol [] (rows.filter (fun r => symbol_fullmatch_2_6 r.1))

/-- Modelled from the spec: the fixed shape rule of §6, "3–6 uppercase
letters" (stated for comparison with the rules the code implements). -/
def spec_shape_rule_3_6 (s : String) : Bool :=
  s.data.all isUpperLetter && decide (3 ≤ s.data.length) &&
    decide (s.data.length ≤ 6)

/-- Membership in an ordered duplicate-free insertion. -/
theorem mem_insD {x a : String} : ∀ {l : List String}, x ∈ insD a l → x = a ∨ x ∈ l := by
  intro l
  induction l with
  | nil =>
    intro h
    simp [insD] at h
    exact Or.inl h
  | cons b bs ih =>
    intro h
    rw [insD] at h
    by_cases hab : a < b
    · rw [if_pos hab] at h
      rcases List.mem_cons.mp h with rfl | h2
      · exact Or.inl rfl
      · exact Or.inr h2
    · rw [if_neg hab] at h
      by_cases heq : a = b
      · rw [if_pos heq] at h
        exact Or.inr h
      · rw [if_neg heq] at h
        rcases List.mem_cons.mp h with rfl | h2
        · exact Or.inr (List.mem_cons_self _ _)
        · rcases ih h2 with h3 | h3
          · exact Or.inl h3
          · exact Or.inr (List.mem_cons_of_mem _ h3)

/-- Ordered duplicate-free insertion preserves strict sortedness. -/
theorem insD_pairwise (a : String) :
    ∀ {l : List String}, l.Pairwise (· < ·) → (insD a l).Pairwise (· < ·) := by
  intro l
  induction l with
  | nil =>
    intro _
    simp [insD]
  | cons b bs ih =>
    intro h
    rw [List.pairwise_cons] at h
    rw [insD]
    by_cases hab : a < b
    · rw [if_pos hab]
      rw [List.pairwise_cons]
      refine ⟨?_, List.pairwise_cons.mpr h⟩
      intro x hx
      rcases List.mem_cons.mp hx with rfl | h2
      · exact hab
      · exact lt_trans hab (h.1 x h2)
    · rw [if_neg hab]
      by_cases heq : a = b
      · rw [if_pos heq]
        exact List.pairwise_cons.mpr h
      · rw [if_neg heq]
        have hba : b < a := by
          rcases lt_trichotomy a b with h3 | h3 | h3
          · exact absurd h3 hab
          · exact absurd h3 heq
          · exact h3
        rw [List.pairwise_cons]
        refine ⟨?_, ih h.2⟩
        intro x hx
        rcases mem_insD hx with rfl | h2
        · exact hba
        · exact h.1 x h2

/-- Python `sorted(set(xs))` is strictly increasing. -/
theorem sortedDedup_pairwise (l : List String) :
    (sortedDedup l).Pairwise (· < ·) := by
  induction l with
  | nil => simp [sortedDedup]
  | cons a t ih => exact insD_pairwise a ih

/-- Every element of `sorted(set(xs))` comes from `xs`. -/
theorem mem_sortedDedup {x : String} :
    ∀ {l : List String}, x ∈ sortedDedup l → x ∈ l := by
  intro l
  induction l with
  | nil =>
    intro h
    cases h
  | cons a t ih =>
    intro h
    rcases mem_insD h with rfl | h2
    · exact List.mem_cons_self _ _
    · exact List.mem_cons_of_mem _ (ih h2)

/-- Every row surviving `drop_duplicates` was in the input. -/
theorem mem_dedup_by_symbol {r : String × String} :
    ∀ (seen : List String) (rows : List (String × String)),
      r ∈ dedup_by_symbol seen rows → r ∈ rows := by
  intro seen rows
  induction rows generalizing seen with
  | nil =>
    intro h
    cases h
  | cons a t ih =>
    intro h
    rw [dedup_by_symbol] at h
    by_cases hc : seen.contains a.1
    · rw [if_pos hc] at h
      exact List.mem_cons_of_mem _ (ih seen h)
    · rw [if_neg hc] at h
      rcases List.mem_cons.mp h with rfl | h2
      · exact List.mem_cons_self _ _
      · exact List.mem_cons_of_mem _ (ih (a.1 :: seen) h2)

end Trendcaster

namespace Trendcaster

/-! ## Claims C9 and C10 -/

/-- C9 counterexample.  The claim says every symbol admitted from a file or
remote listing is normalized to the exchange-qualified form and matches the
fixed rule of 3–6 uppercase letters.  The İş Yatırım remote listing filter
of `fetch_all_bist_tickers` (bist_returns.py) admits the bare two-letter
symbol `"AB"`, which neither matches the 3–6-letter rule nor carries the
`".IS"` exchange qualifier. -/
theorem C9_counterexample :
    fetch_all_bist_tickers_filter [("AB", "AB COMPANY")] = [("AB", "AB COMPANY")] ∧
    spec_shape_rule_3_6 "AB" = false ∧
    ends_with_is "AB" = false := by
  refine ⟨?_, by decide, by decide⟩
  rfl

/-- C9 amended: the two analyze_stocks.py sources (file and URL) admit
exactly the `.IS`-qualified symbols whose letter core is 3–5 uppercase
letters followed by `".IS"` — non-matching entries are silently dropped by
the filter, never raised — while the İş Yatırım remote listing of
bist_returns.py admits bare runs of 2–6 uppercase letters with no exchange
qualifier at admission time. -/
theorem C9_admission_rules (lines cands : List String)
    (rows : List (String × String)) :
    (∀ s ∈ load_from_file lines, is_equity_symbol s = true) ∧
    (∀ s ∈ load_from_url cands, is_equity_symbol s = true) ∧
    (∀ s, is_equity_symbol s = true →
        s.data = s.data.takeWhile isUpperLetter ++ ['.', 'I', 'S'] ∧
        3 ≤ (s.data.takeWhile isUpperLetter).length ∧
        (s.data.takeWhile isUpperLetter).length ≤ 5 ∧
        ∀ c ∈ s.data.takeWhile isUpperLetter, isUpperLetter c = true) ∧
    (∀ r ∈ fetch_all_bist_tickers_filter rows, symbol_fullmatch_2_6 r.1 = true) ∧
    (∀ s, symbol_fullmatch_2_6 s = true →
        2 ≤ s.data.length ∧ s.data.length ≤ 6 ∧
        ∀ c ∈ s.data, isUpperLetter c = true) := by
  refine ⟨?_, ?_, ?_, ?_, ?_⟩
  · intro s hs
    have hmem := mem_sortedDedup hs
    obtain ⟨line, _, hline⟩ := List.mem_filterMap.mp hmem
    by_cases h1 : pyStrip line = ""
    · rw [if_pos h1] at hline
      cases hline
    · rw [if_neg h1] at hline
      by_cases h2 : is_equity_symbol (ensure_is_suffix (pyStrip line)) = true
      · rw [if_pos h2] at hline
        cases hline
        exact h2
      · rw [if_neg h2] at hline
        cases hline
  · intro s hs
    have hmem := mem_sortedDedup hs
    exact (List.mem_filter.mp hmem).2
  · intro s h
    rw [is_equity_symbol, Bool.and_assoc, Bool.and_eq_true, Bool.and_eq_true] at h
    obtain ⟨h3, h5, hD⟩ := h
    have hD2 : s.data.dropWhile isUpperLetter = ['.', 'I', 'S'] := by
      simpa using hD
    refine ⟨?_, by simpa using h3, by simpa using h5, ?_⟩
    · rw [← hD2]
      exact (List.takeWhile_append_dropWhile _ _).symm
    · intro c hc
      exact List.mem_takeWhile_imp hc
  · intro r hr
    have hmem := mem_dedup_by_symbol [] _ hr
    exact (List.mem_filter.mp hmem).2
  · intro s h
    rw [symbol_fullmatch_2_6, Bool.and_assoc, Bool.and_eq_true, Bool.and_eq_true] at h
    obtain ⟨ha, h2, h6⟩ := h
    exact ⟨by simpa using h2, by simpa using h6, fun c hc => List.all_eq_true.mp ha c hc⟩

end Trendcaster

namespace Trendcaster

/-- Witness for C9_admission_rules on concrete inputs: a lowercase file line
is admitted in exchange-qualified 3–5-letter form, and the bare two-letter
row survives the remote-listing filter. -/
theorem C9_admission_rules_witness :
    "AKBNK.IS" ∈ load_from_file ["akbnk", " ", "x"] ∧
    is_equity_symbol "AKBNK.IS" = true ∧
    ("AB", "AB COMPANY") ∈
      fetch_all_bist_tickers_filter [("AB", "AB COMPANY"), ("TOOLONGG", "X")] ∧
    symbol_fullmatch_2_6 "AB" = true :=
  ⟨by decide,
    (C9_admission_rules ["akbnk", " ", "x"] [] []).1 "AKBNK.IS" (by decide),
    by decide,
    (C9_admission_rules [] [] [("AB", "AB COMPANY"), ("TOOLONGG", "X")]).2.2.2.1
      ("AB", "AB COMPANY") (by decide)⟩

/-- C10: every universe-loading path of analyze_stocks.py — file source, URL
source and the static fallback through `load_all_bist_tickers` — returns a
strictly increasing (hence sorted and duplicate-free) list of symbols, so
the universe and fetch order are deterministic for a given source. -/
theorem C10_universe_sorted (lines cands : List String)
    (urlCandidates : Option (List String)) :
    (load_from_file lines).Pairwise (· < ·) ∧
    (load_from_url cands).Pairwise (· < ·) ∧
    (load_all_bist_tickers lines urlCandidates).Pairwise (· < ·) ∧
    (load_from_file lines).Nodup ∧
    (load_from_url cands).Nodup ∧
    (load_all_bist_tickers lines urlCandidates).Nodup := by
  have h1 : (load_from_file lines).Pairwise (· < ·) := sortedDedup_pairwise _
  have h2 : (load_from_url cands).Pairwise (· < ·) := sortedDedup_pairwise _
  have h3 : (load_all_bist_tickers lines urlCandidates).Pairwise (· < ·) := by
    rcases urlCandidates with _ | cands2
    · show (if (load_from_file lines).isEmpty then sortedDedup FALLBACK_TICKERS
          else load_from_file lines).Pairwise (· < ·)
      by_cases hf : (load_from_file lines).isEmpty
      · rw [if_pos hf]
        exact sortedDedup_pairwise _
      · rw [if_neg hf]
        exact h1
    · show (if (load_from_file lines).isEmpty then
            (if (load_from_url cands2).isEmpty then sortedDedup FALLBACK_TICKERS
              else load_from_url cands2)
          else load_from_file lines).Pairwise (· < ·)
      by_cases hf : (load_from_file lines).isEmpty
      · rw [if_pos hf]
        by_cases hu : (load_from_url cands2).isEmpty
        · rw [if_pos hu]
          exact sortedDedup_pairwise _
        · rw [if_neg hu]
          exact sortedDedup_pairwise _
      · rw [if_neg hf]
        exact h1
  exact ⟨h1, h2, h3, h1.imp (fun hab => ne_of_lt hab),
    h2.imp (fun hab => ne_of_lt hab), h3.imp (fun hab => ne_of_lt hab)⟩

end Trendcaster

namespace Trendcaster

/-! ## SourceReconciler (claim C5)

No reconciler exists anywhere under the repository's source tree — only the
specification (§4.4) describes it — so the component is modelled from the
spec and the claim is settled against that model. -/

/-- Modelled from the spec: the enumerated trailing `ReturnWindow` horizons
`{Daily, D30, D90, D180, D360}` (§3). -/
inductive Window where
  | daily
  | d30
  | d90
  | d180
  | d360
deriving DecidableEq

/-- Modelled from the spec: a `ReconciliationInput` — one provider's partial
record for a symbol, carrying its own `lastUpdated` timestamp and a numeric
value or `absent` for each field (§3, §4.4). -/
structure RecInput where
  lastUpdated : ℚ
  vals : Window → Option ℚ

/-- Modelled from the spec: the greatest `lastUpdated` among the inputs
(`none` for no inputs), used to pick the recency winners of §4.4. -/
def maxTs : List RecInput → Option ℚ
  | [] => none
  | i :: is => some (is.foldl (fun a j => max a j.lastUpdated) i.lastUpdated)

/-- Modelled from the spec: `reconcile` on one numeric field (§4.4) — a
single input is adopted verbatim; with several inputs the ones carrying the
greatest `lastUpdated` win: a unique winner's field is adopted field-by-field,
and inputs tied at the greatest timestamp have the field independently
averaged over those of them that provide a non-absent value, an all-absent
field staying absent. -/
def reconcile (inputs : List RecInput) (w : Window) : Option ℚ :=
  match maxTs inputs with
  | none => none
  | some m =>
    match inputs.filter (fun i => i.lastUpdated == m) with
    | [i] => i.vals w
    | winners =>
      match winners.filterMap (fun i => i.vals w) with
      | [] => none
      | provided => some (provided.sum / (provided.length : ℚ))

/-- A fold by `max` dominates its seed and every folded element. -/
theorem le_foldl_max (xs : List RecInput) :
    ∀ a : ℚ, a ≤ xs.foldl (fun acc j => max acc j.lastUpdated) a ∧
      ∀ j ∈ xs, j.lastUpdated ≤ xs.foldl (fun acc j => max acc j.lastUpdated) a := by
  induction xs with
  | nil =>
    intro a
    exact ⟨le_refl a, by simp⟩
  | cons x xs ih =>
    intro a
    refine ⟨le_trans (le_max_left a x.lastUpdated) (ih (max a x.lastUpdated)).1, ?_⟩
    intro j hj
    rcases List.mem_cons.mp hj with rfl | hj2
    · exact le_trans (le_max_right a j.lastUpdated) (ih (max a j.lastUpdated)).1
    · exact (ih (max a x.lastUpdated)).2 j hj2

/-- A fold by `max` returns its seed or one of the folded timestamps. -/
theorem foldl_max_achieved (xs : List RecInput) :
    ∀ a : ℚ, xs.foldl (fun acc j => max acc j.lastUpdated) a = a ∨
      ∃ j ∈ xs, xs.foldl (fun acc j => max acc j.lastUpdated) a = j.lastUpdated := by
  induction xs with
  | nil =>
    intro a
    exact Or.inl rfl
  | cons x xs ih =>
    intro a
    rcases ih (max a x.lastUpdated) with h | ⟨j, hj, hje⟩
    · by_cases hax : a ≤ x.lastUpdated
      · exact Or.inr ⟨x, List.mem_cons_self _ _,
          by rw [List.foldl_cons, h, max_eq_right hax]⟩
      · exact Or.inl (by rw [List.foldl_cons, h, max_eq_left (le_of_not_le hax)])
    · exact Or.inr ⟨j, List.mem_cons_of_mem _ hj, by rw [List.foldl_cons]; exact hje⟩

/-- A fold by `max` over constant timestamps is the seed. -/
theorem foldl_max_const (xs : List RecInput) :
    ∀ a : ℚ, (∀ j ∈ xs, j.lastUpdated = a) →
      xs.foldl (fun acc j => max acc j.lastUpdated) a = a := by
  induction xs with
  | nil =>
    intro a _
    rfl
  | cons x xs ih =>
    intro a h
    rw [List.foldl_cons, h x (List.mem_cons_self _ _), max_self]
    exact ih a (fun j hj => h j (List.mem_cons_of_mem _ hj))

/-- Filtering a duplicate-free list by a predicate that exactly one member
satisfies returns that member alone. -/
theorem filter_eq_single (p : RecInput → Bool) (i : RecInput) :
    ∀ l : List RecInput, i ∈ l → l.Nodup → p i = true →
      (∀ j ∈ l, j ≠ i → p j = false) → l.filter p = [i] := by
  intro l
  induction l with
  | nil =>
    intro hmem
    cases hmem
  | cons a t ih =>
    intro hmem hnd hp ho
    rcases List.mem_cons.mp hmem with rfl | hmem2
    · rw [List.filter_cons_of_pos hp]
      have htnil : t.filter p = [] := by
        rw [List.filter_eq_nil_iff]
        intro x hx
        have hxne : x ≠ i := by
          intro he
          subst he
          exact (List.nodup_cons.mp hnd).1 hx
        simp [ho x (List.mem_cons_of_mem _ hx) hxne]
      rw [htnil]
    · have hane : a ≠ i := by
        intro he
        exact absurd (he ▸ hmem2) (List.nodup_cons.mp hnd).1
      rw [List.filter_cons_of_neg (by simp [ho a (List.mem_cons_self _ _) hane])]
      exact ih hmem2 (List.nodup_cons.mp hnd).2 hp
        (fun j hj => ho j (List.mem_cons_of_mem _ hj))

end Trendcaster

namespace Trendcaster

/-- C5 (spec-modelled): with a strictly latest input, `reconcile` adopts that
input's value field-by-field; with all inputs sharing one `lastUpdated`,
each field is independently averaged over the inputs providing a non-absent
value for it, and a field absent in every input stays absent. -/
theorem C5_reconcile (inputs : List RecInput) (w : Window) :
    (∀ i ∈ inputs, inputs.Nodup →
      (∀ j ∈ inputs, j ≠ i → j.lastUpdated < i.lastUpdated) →
      reconcile inputs w = i.vals w) ∧
    (∀ t : ℚ, inputs ≠ [] → (∀ j ∈ inputs, j.lastUpdated = t) →
      ((inputs.filterMap (fun i => i.vals w) = [] → reconcile inputs w = none) ∧
       (∀ v vs, inputs.filterMap (fun i => i.vals w) = v :: vs →
          reconcile inputs w =
            some ((v :: vs).sum / ((v :: vs).length : ℚ))))) := by
  constructor
  · intro i hi hnd hstrict
    rcases inputs with _ | ⟨x, xs⟩
    · cases hi
    have hb := le_foldl_max xs x.lastUpdated
    have hile : i.lastUpdated ≤
        xs.foldl (fun a j => max a j.lastUpdated) x.lastUpdated := by
      rcases List.mem_cons.mp hi with rfl | hi2
      · exact hb.1
      · exact hb.2 i hi2
    have hm : xs.foldl (fun a j => max a j.lastUpdated) x.lastUpdated =
        i.lastUpdated := by
      rcases foldl_max_achieved xs x.lastUpdated with h | ⟨j, hj, hje⟩
      · by_cases hxi : x = i
        · rw [h, hxi]
        · have hlt := hstrict x (List.mem_cons_self _ _) hxi
          rw [h] at hile
          exact absurd (lt_of_lt_of_le hlt hile) (lt_irrefl _)
      · by_cases hji : j = i
        · rw [hje, hji]
        · have hlt := hstrict j (List.mem_cons_of_mem _ hj) hji
          rw [hje] at hile
          exact absurd (lt_of_lt_of_le hlt hile) (lt_irrefl _)
    have hfil : (x :: xs).filter
        (fun k => k.lastUpdated ==
          xs.foldl (fun a j => max a j.lastUpdated) x.lastUpdated) = [i] := by
      refine filter_eq_single _ i (x :: xs) hi hnd ?_ ?_
      · rw [hm]
        simp
      · intro j hj hjne
        rw [hm]
        simp only [beq_eq_false_iff_ne, ne_eq]
        exact ne_of_lt (hstrict j hj hjne)
    show reconcile (x :: xs) w = i.vals w
    simp only [reconcile, maxTs]
    rw [hfil]
  · intro t hne hall
    rcases inputs with _ | ⟨x, xs⟩
    · exact absurd rfl hne
    have hm : xs.foldl (fun a j => max a j.lastUpdated) x.lastUpdated = t := by
      rw [hall x (List.mem_cons_self _ _)]
      exact foldl_max_const xs t (fun j hj => hall j (List.mem_cons_of_mem _ hj))
    have hfil : (x :: xs).filter
        (fun k => k.lastUpdated ==
          xs.foldl (fun a j => max a j.lastUpdated) x.lastUpdated) = x :: xs := by
      rw [List.filter_eq_self]
      intro a ha
      rw [hm]
      simp [hall a ha]
    rcases xs with _ | ⟨y, ys⟩
    · constructor
      · intro hfm
        have hxv : x.vals w = none := by
          rcases hv : x.vals w with _ | v
          · rfl
          · simp [List.filterMap_cons, hv] at hfm
        show reconcile [x] w = none
        simp only [reconcile, maxTs]
        rw [hfil]
        exact hxv
      · intro v vs hfm
        rcases hv : x.vals w with _ | u
        · simp [List.filterMap_cons, hv] at hfm
        · simp only [List.filterMap_cons, hv, List.filterMap_nil] at hfm
          have hvu : u = v := by
            have := congrArg (fun l => l.headI) hfm
            simpa using this
          have hvs : vs = [] := by
            have := congrArg (fun l => l.tail) hfm
            simpa using this.symm
          subst hvu
          subst hvs
          simp only [reconcile, maxTs]
          rw [hfil]
          exact hv.trans (by norm_num)
    · have heq : reconcile (x :: y :: ys) w =
          match (x :: y :: ys).filterMap (fun i => i.vals w) with
          | [] => none
          | provided => some (provided.sum / (provided.length : ℚ)) := by
        simp only [reconcile, maxTs]
        rw [hfil]
      constructor
      · intro hfm
        rw [heq, hfm]
      · intro v vs hfm
        rw [heq, hfm]

end Trendcaster

namespace Trendcaster

/-- Witness for C5_reconcile: two inputs with equal timestamps and values
`{10, 12}` reconcile to `11`; with unequal timestamps the later input's
value wins regardless of magnitude. -/
theorem C5_reconcile_witness :
    reconcile [⟨0, fun _ => some 10⟩, ⟨0, fun _ => some 12⟩] Window.d30 =
      some 11 ∧
    reconcile [⟨0, fun _ => some 10⟩, ⟨1, fun _ => some 99⟩] Window.d30 =
      some 99 := by
  constructor
  · have hall : ∀ j ∈ [(⟨0, fun _ => some 10⟩ : RecInput), ⟨0, fun _ => some 12⟩],
        j.lastUpdated = 0 := by
      intro j hj
      rcases List.mem_cons.mp hj with rfl | hj2
      · rfl
      · rcases List.mem_cons.mp hj2 with rfl | hj3
        · rfl
        · cases hj3
    have h := ((C5_reconcile [⟨0, fun _ => some 10⟩, ⟨0, fun _ => some 12⟩]
        Window.d30).2 0 (by simp) hall).2 10 [12] rfl
    rw [h]
    norm_num
  · have hmem : (⟨1, fun _ => some 99⟩ : RecInput) ∈
        [(⟨0, fun _ => some 10⟩ : RecInput), ⟨1, fun _ => some 99⟩] :=
      List.mem_cons_of_mem _ (List.mem_cons_self _ _)
    have hne : (⟨0, fun _ => some 10⟩ : RecInput) ≠ ⟨1, fun _ => some 99⟩ := by
      intro h
      exact absurd (congrArg RecInput.lastUpdated h) (by norm_num)
    have hnd : ([(⟨0, fun _ => some 10⟩ : RecInput), ⟨1, fun _ => some 99⟩]).Nodup := by
      refine List.nodup_cons.mpr ⟨?_, List.nodup_cons.mpr ⟨by simp, List.nodup_nil⟩⟩
      intro h
      rw [List.mem_singleton] at h
      exact hne h
    have hstrict : ∀ j ∈ [(⟨0, fun _ => some 10⟩ : RecInput), ⟨1, fun _ => some 99⟩],
        j ≠ ⟨1, fun _ => some 99⟩ →
        j.lastUpdated < (⟨1, fun _ => some 99⟩ : RecInput).lastUpdated := by
      intro j hj hjne
      rcases List.mem_cons.mp hj with rfl | hj2
      · norm_num
      · rcases List.mem_cons.mp hj2 with rfl | hj3
        · exact absurd rfl hjne
        · cases hj3
    exact (C5_reconcile [⟨0, fun _ => some 10⟩, ⟨1, fun _ => some 99⟩]
        Window.d30).1 ⟨1, fun _ => some 99⟩ hmem hnd hstrict

end Trendcaster
